import Mathlib

/-!
Shallow embedding of the content-discovery engine of the portfolio
repository: the client-side blog filtering utilities
(src/src/lib/blogClient.ts) and the URL-state logic of the blog page
component (src/src/app/blog/components/SearchBar.tsx), together with
proofs about the spec's claims on them.

Modelling conventions:
- A blog post's `date` string is represented by the integer instant
  that `new Date(date).getTime()` parses it to (the data model requires
  `publishedAt` to be parseable to a comparable instant).
- JavaScript `Array.prototype.sort` with a comparator `cmp` is a stable
  sort; it is embedded as the stable `List.insertionSort` under the
  relation `cmp a b <= 0`, which for the (total-preorder) comparators
  used here computes exactly the stable sort JavaScript performs.
- `String.prototype.localeCompare` (default locale) is modelled for
  strings by an ICU-root-style two-level comparison: a primary pass
  compares letters case-insensitively (all letters above every other
  code point), and a tertiary pass orders a lowercase letter before the
  corresponding uppercase letter; non-letter characters compare by code
  point. In particular "a" sorts before "B", unlike ordinal comparison.
- `URLSearchParams` is modelled as a list of key/value pairs: `set`
  appends a (fresh-keyed) pair, `get` returns the first value for a
  key, `getAll` returns all values in order.  Percent-encoding of the
  serialized query string is the browser's own round-tripping codec and
  is not modelled.
-/

namespace Portfolio

/-- Embeds interface BlogPostMeta of src/src/lib/blogClient.ts.
The `date` field holds the parsed instant of the date string. -/
structure BlogPostMeta where
  slug : String
  title : String
  date : Int
  excerpt : String
  tags : List String
deriving DecidableEq, Repr

/-- A runtime value stored in the plain-object tagCounts accumulator.
The write tagCounts[tag] = (tagCounts[tag] || 0) + 1 usually stores a
number, but when the first read of a key named like an inherited
Object.prototype member returns that member (a function, truthy), the
JavaScript + concatenates, storing a string. -/
inductive TagCountValue where
  | num (n : Nat)
  | str (s : String)
deriving DecidableEq, Repr

/-- Embeds interface TagWithCount of src/src/lib/blogClient.ts.  The TS
declaration types count as number, but at runtime an entry for a tag
named like an Object.prototype member carries the concatenated string
instead, so the embedded count is a number-or-string value. -/
structure TagWithCount where
  tag : String
  count : TagCountValue
deriving DecidableEq, Repr

/-! ### Model of String.prototype.localeCompare (default locale) -/

/-- Primary collation weight of a character: letters compare
case-insensitively and above every non-letter code point. -/
def primChar (c : Char) : Nat :=
  if ('a' ≤ c ∧ c ≤ 'z') then 1114112 + (c.toNat - 97)
  else if ('A' ≤ c ∧ c ≤ 'Z') then 1114112 + (c.toNat - 65)
  else c.toNat

/-- Tertiary collation weight: uppercase after lowercase at equal letters. -/
def tertChar (c : Char) : Nat :=
  if ('A' ≤ c ∧ c ≤ 'Z') then 1 else 0

/-- Strict lexicographic order on weight lists. -/
def lexLt : List Nat → List Nat → Bool
  | [], [] => false
  | [], _ :: _ => true
  | _ :: _, [] => false
  | a :: as, b :: bs => decide (a < b) || (decide (a = b) && lexLt as bs)

def primKey (s : String) : List Nat := s.data.map primChar

def tertKey (s : String) : List Nat := s.data.map tertChar

/-- Model of s.localeCompare(t): primary (case-insensitive) pass first,
then the tertiary (case) pass. -/
def localeCompare (s t : String) : Int :=
  if lexLt (primKey s) (primKey t) then -1
  else if lexLt (primKey t) (primKey s) then 1
  else if lexLt (tertKey s) (tertKey t) then -1
  else if lexLt (tertKey t) (tertKey s) then 1
  else 0

/-! ### Model of JavaScript stable sort and substring containment -/

/-- JavaScript Array.prototype.sort with comparator cmp: the stable
sort under the relation cmp a b <= 0.  Implemented as insertion sort,
which is structurally recursive (so it evaluates inside the kernel);
for the total-preorder comparators used in this file every stable sort
produces the same output, so this is exactly what the JavaScript
runtime computes. -/
def jsSort (cmp : α → α → Int) (l : List α) : List α :=
  l.insertionSort (fun a b => cmp a b ≤ 0)

/-- Helper for jsIncludes: the first list starts the second. -/
def startsChars : List Char → List Char → Bool
  | [], _ => true
  | _ :: _, [] => false
  | a :: as, b :: bs => a == b && startsChars as bs

/-- Helper for jsIncludes: the second list occurs inside the first. -/
def containsChars : List Char → List Char → Bool
  | [], needle => needle.isEmpty
  | c :: rest, needle => startsChars needle (c :: rest) || containsChars rest needle

/-- Embeds JavaScript s.includes(sub) (substring containment). -/
def jsIncludes (s sub : String) : Bool := containsChars s.data sub.data

/-- JavaScript whitespace test (the ASCII whitespace characters). -/
def jsIsSpace (c : Char) : Bool :=
  c == ' ' || c == '\t' || c == '\n' || c == '\r'

/-- Embeds String.prototype.trim (drops leading and trailing
whitespace), implemented on the character list so it evaluates inside
the kernel. -/
def jsTrim (s : String) : String :=
  String.mk (((s.data.dropWhile jsIsSpace).reverse.dropWhile jsIsSpace).reverse)

/-- Embeds String.prototype.toLowerCase (ASCII case mapping),
implemented on the character list so it evaluates inside the kernel. -/
def jsToLower (s : String) : String :=
  String.mk (s.data.map Char.toLower)

/-! ### Embeddings of the functions in src/src/lib/blogClient.ts -/

/-- The own function-valued property names of Object.prototype
(ECMA-262).  A plain-object read of one of these keys with no own
property returns the inherited function instead of undefined. -/
def objectProtoFns : List String :=
  ["constructor", "hasOwnProperty", "isPrototypeOf", "propertyIsEnumerable",
   "toLocaleString", "toString", "valueOf",
   "__defineGetter__", "__defineSetter__", "__lookupGetter__", "__lookupSetter__"]

/-- Every Object.prototype own property name: the function-valued
members plus the __proto__ accessor. -/
def objectProtoKeys : List String := "__proto__" :: objectProtoFns

/-- The source text V8 (the Node/Chrome engine) renders for an
inherited Object.prototype member: its members are native functions
(the constructor member is the Object function itself).  Only the fact
that this is a nonempty, non-numeric string is ever used below. -/
def inheritedFnSource (name : String) : String :=
  if name = "constructor" then "function Object() \x7b [native code] \x7d"
  else "function " ++ name ++ "() \x7b [native code] \x7d"

/-- JavaScript (v || 0) + 1 for an own stored value v: numbers
increment; a nonempty string (always the case here) is truthy and +
concatenates the character 1; an empty string is falsy and restarts at
the number 1. -/
def jsPlusOne : TagCountValue → TagCountValue
  | .num n => .num (n + 1)
  | .str s => if s = "" then .num 1 else .str (s ++ "1")

/-- The value stored by tagCounts[tag] = (tagCounts[tag] || 0) + 1 when
no own property for tag exists yet: reading a key named like an
inherited Object.prototype function yields that function (truthy), so
+ 1 concatenates its source text; any other key reads undefined, so
the write stores the number 1. -/
def initialTagValue (tag : String) : TagCountValue :=
  if tag ∈ objectProtoFns then .str (inheritedFnSource tag ++ "1")
  else .num 1

/-- Own-property update of the tagCounts object for one tag occurrence,
on an association list kept in own-key insertion order. -/
def bumpOwn : List (String × TagCountValue) → String → List (String × TagCountValue)
  | [], tag => [(tag, initialTagValue tag)]
  | (k, c) :: rest, tag =>
      if k = tag then (k, jsPlusOne c) :: rest else (k, c) :: bumpOwn rest tag

/-- Embeds the tag-count accumulation of getAllTagsFromPosts:
tagCounts[tag] = (tagCounts[tag] || 0) + 1.  Assigning to the key
__proto__ goes through the inherited Object.prototype accessor, and
setting it to a non-object is a no-op that creates no own property, so
the object is left unchanged; every other key updates or creates an
own property.  (Object.entries enumerates array-index-like keys before
the other string keys; that order is not tracked here because the
final comparator below never ties on entries with distinct tags, so
the sorted output is independent of enumeration order.) -/
def bumpTag (m : List (String × TagCountValue)) (tag : String) :
    List (String × TagCountValue) :=
  if tag = "__proto__" then m else bumpOwn m tag

/-- The tagCounts object built by getAllTagsFromPosts. -/
def tagCountsOf (posts : List BlogPostMeta) : List (String × TagCountValue) :=
  posts.foldl (fun acc post => post.tags.foldl bumpTag acc) []

/-- The comparator (a, b) => b.count - a.count || a.tag.localeCompare(b.tag).
When both counts are numbers the subtraction is numeric and zero falls
through to localeCompare; when either count is one of the concatenated
garbage strings (never numeric), the subtraction is NaN, which is
falsy, so the comparator also falls through to localeCompare. -/
def tagCmp (a b : TagWithCount) : Int :=
  match a.count, b.count with
  | .num na, .num nb =>
      if (nb : Int) - (na : Int) ≠ 0 then (nb : Int) - (na : Int)
      else localeCompare a.tag b.tag
  | _, _ => localeCompare a.tag b.tag

/-- Embeds getAllTagsFromPosts of src/src/lib/blogClient.ts. -/
def getAllTagsFromPosts (posts : List BlogPostMeta) : List TagWithCount :=
  jsSort tagCmp ((tagCountsOf posts).map (fun e => ⟨e.1, e.2⟩))

/-- Projection of a count value to a number (garbage strings, excluded
by the theorems that use this, project to 0). -/
def countNat : TagCountValue → Nat
  | .num n => n
  | .str _ => 0

/-- The filter predicate of filterPostsByTag: the post carries a tag
equal to the given tag case-insensitively. -/
def hasTagCI (post : BlogPostMeta) (tag : String) : Bool :=
  post.tags.any (fun postTag => jsToLower postTag == jsToLower tag)

/-- Embeds filterPostsByTag of src/src/lib/blogClient.ts. -/
def filterPostsByTag (posts : List BlogPostMeta) (tag : String) : List BlogPostMeta :=
  posts.filter (fun post => hasTagCI post tag)

/-- The titleMatch test of searchPosts (query already lowercased). -/
def titleMatch (lowercaseQuery : String) (post : BlogPostMeta) : Bool :=
  jsIncludes (jsToLower post.title) lowercaseQuery

/-- The filter predicate of searchPosts: titleMatch || excerptMatch || tagMatch. -/
def postMatches (lowercaseQuery : String) (post : BlogPostMeta) : Bool :=
  titleMatch lowercaseQuery post
    || jsIncludes (jsToLower post.excerpt) lowercaseQuery
    || post.tags.any (fun tag => jsIncludes (jsToLower tag) lowercaseQuery)

/-- The ranking comparator of searchPosts: title matches first, then
new Date(b.date).getTime() - new Date(a.date).getTime(). -/
def searchCmp (lowercaseQuery : String) (a b : BlogPostMeta) : Int :=
  if titleMatch lowercaseQuery a && !titleMatch lowercaseQuery b then -1
  else if !titleMatch lowercaseQuery a && titleMatch lowercaseQuery b then 1
  else b.date - a.date

/-- Embeds searchPosts of src/src/lib/blogClient.ts. -/
def searchPosts (posts : List BlogPostMeta) (query : String) : List BlogPostMeta :=
  if jsTrim query = "" then posts
  else
    jsSort (searchCmp (jsToLower query)) (posts.filter (postMatches (jsToLower query)))

/-- The comparator inside sortPosts (always the ascending direction). -/
def sortCmp (sortBy : String) (a b : BlogPostMeta) : Int :=
  if sortBy = "date" then a.date - b.date
  else if sortBy = "title" then localeCompare a.title b.title
  else 0

/-- Embeds sortPosts of src/src/lib/blogClient.ts: stable sort with the
ascending comparator, then an in-place reverse when order === desc.
sortBy and order are runtime strings (the TS unions are erased). -/
def sortPosts (posts : List BlogPostMeta) (sortBy : String) (order : String) :
    List BlogPostMeta :=
  let sorted := jsSort (sortCmp sortBy) posts
  if order = "desc" then sorted.reverse else sorted

/-! ### Embeddings of the state logic in
src/src/app/blog/components/SearchBar.tsx (BlogClient component) -/

/-- The filter state of the BlogClient component.  sortBy and sortOrder
are runtime strings: the TS SortOption/SortOrder annotations are erased
at runtime and the URL-decoding cast does not validate them. -/
structure FilterState where
  searchQuery : String
  selectedTags : List String
  sortBy : String
  sortOrder : String
deriving DecidableEq, Repr

/-- The useState initial values of BlogClient. -/
def defaultFilterState : FilterState :=
  { searchQuery := "", selectedTags := [], sortBy := "date", sortOrder := "desc" }

/-- Embeds updateURL of BlogClient: builds the URLSearchParams list.
Each guard mirrors a JavaScript truthiness test (a string is truthy iff
nonempty), so search is set to the trimmed query only when the raw and
trimmed query are nonempty, tags are appended in order, and sort/order
are set only when truthy and different from their defaults. -/
def encodeState (s : FilterState) : List (String × String) :=
  (if s.searchQuery ≠ "" ∧ jsTrim s.searchQuery ≠ "" then [("search", jsTrim s.searchQuery)] else [])
    ++ s.selectedTags.map (fun tag => ("tag", tag))
    ++ (if s.sortBy ≠ "" ∧ s.sortBy ≠ "date" then [("sort", s.sortBy)] else [])
    ++ (if s.sortOrder ≠ "" ∧ s.sortOrder ≠ "desc" then [("order", s.sortOrder)] else [])

/-- URLSearchParams.get: first value for the key, if any. -/
def getParam (params : List (String × String)) (key : String) : Option String :=
  (params.find? (fun p => p.1 == key)).map (fun p => p.2)

/-- URLSearchParams.getAll: every value for the key, in order. -/
def getAllParams (params : List (String × String)) (key : String) : List String :=
  (params.filter (fun p => p.1 == key)).map (fun p => p.2)

/-- JavaScript (x || d) on an optional string: absent or empty falls
back to d, any other string is kept verbatim. -/
def jsOrDefault (v : Option String) (d : String) : String :=
  match v with
  | none => d
  | some s => if s = "" then d else s

/-- Embeds the URL-init useEffect of BlogClient: searchParams.get with
|| fallbacks and an unchecked cast for sort/order. -/
def decodeState (params : List (String × String)) : FilterState :=
  { searchQuery := jsOrDefault (getParam params "search") ""
    selectedTags := getAllParams params "tag"
    sortBy := jsOrDefault (getParam params "sort") "date"
    sortOrder := jsOrDefault (getParam params "order") "desc" }

/-- Embeds the filteredPosts useMemo of BlogClient: search when the
trimmed query is truthy, then filterPostsByTag once per selected tag,
then sortPosts. -/
def evaluatePipeline (posts : List BlogPostMeta) (state : FilterState) :
    List BlogPostMeta :=
  let afterSearch :=
    if jsTrim state.searchQuery ≠ "" then searchPosts posts state.searchQuery else posts
  let afterTags :=
    state.selectedTags.foldl (fun acc tag => filterPostsByTag acc tag) afterSearch
  sortPosts afterTags state.sortBy state.sortOrder

/-- Embeds handleTagToggle of BlogClient: remove every occurrence when
present, otherwise append at the end. -/
def toggleTag (selectedTags : List String) (tag : String) : List String :=
  if selectedTags.contains tag then selectedTags.filter (fun t => t != tag)
  else selectedTags ++ [tag]

/-! ### Order properties of the collation model -/

theorem lexLt_irrefl : ∀ l : List Nat, lexLt l l = false
  | [] => rfl
  | _ :: as => by simp [lexLt, lexLt_irrefl as]

theorem lexLt_trans : ∀ a b c : List Nat,
    lexLt a b = true → lexLt b c = true → lexLt a c = true := by
  intro a
  induction a with
  | nil =>
    intro b c h1 h2
    cases b with
    | nil => simp [lexLt] at h1
    | cons y ys =>
      cases c with
      | nil => simp [lexLt] at h2
      | cons z zs => simp [lexLt]
  | cons x xs ih =>
    intro b c h1 h2
    cases b with
    | nil => simp [lexLt] at h1
    | cons y ys =>
      cases c with
      | nil => simp [lexLt] at h2
      | cons z zs =>
        simp only [lexLt, Bool.or_eq_true, Bool.and_eq_true, decide_eq_true_eq] at h1 h2 ⊢
        rcases h1 with h1 | ⟨hxy, h1⟩
        · rcases h2 with h2 | ⟨hyz, h2⟩
          · exact Or.inl (Nat.lt_trans h1 h2)
          · exact Or.inl (hyz ▸ h1)
        · rcases h2 with h2 | ⟨hyz, h2⟩
          · exact Or.inl (hxy ▸ h2)
          · exact Or.inr ⟨hxy.trans hyz, ih ys zs h1 h2⟩

theorem lexLt_asymm {a b : List Nat} (h : lexLt a b = true) : lexLt b a = false := by
  cases hba : lexLt b a with
  | false => rfl
  | true => exact absurd (lexLt_trans a b a h hba) (by simp [lexLt_irrefl])

theorem lexLt_connex : ∀ a b : List Nat,
    lexLt a b = false → a = b ∨ lexLt b a = true := by
  intro a
  induction a with
  | nil =>
    intro b h
    cases b with
    | nil => exact Or.inl rfl
    | cons y ys => simp [lexLt] at h
  | cons x xs ih =>
    intro b h
    cases b with
    | nil => exact Or.inr (by simp [lexLt])
    | cons y ys =>
      simp only [lexLt, Bool.or_eq_false_iff, Bool.and_eq_false_iff,
        decide_eq_false_iff_not, Bool.or_eq_true, Bool.and_eq_true,
        decide_eq_true_eq] at h ⊢
      obtain ⟨hlt, heq⟩ := h
      rcases Nat.lt_trichotomy x y with hxy | hxy | hxy
      · exact absurd hxy hlt
      · rcases heq with heq | heq
        · exact absurd hxy heq
        · rcases ih ys heq with h | h
          · exact Or.inl (by rw [hxy, h])
          · exact Or.inr (Or.inr ⟨hxy.symm, h⟩)
      · exact Or.inr (Or.inl hxy)

theorem localeCompare_le_iff (s t : String) :
    localeCompare s t ≤ 0 ↔
      (lexLt (primKey s) (primKey t) = true ∨
        (primKey s = primKey t ∧ lexLt (tertKey t) (tertKey s) = false)) := by
  unfold localeCompare
  split_ifs with h1 h2 h3 h4
  · exact iff_of_true (by norm_num) (Or.inl h1)
  · refine iff_of_false (by norm_num) ?_
    rintro (h | ⟨he, _⟩)
    · rw [lexLt_asymm h] at h2; exact absurd h2 (by simp)
    · rw [he, lexLt_irrefl] at h2; exact absurd h2 (by simp)
  · have h1f : lexLt (primKey s) (primKey t) = false := by
      cases hv : lexLt (primKey s) (primKey t) <;> simp_all
    have h2f : lexLt (primKey t) (primKey s) = false := by
      cases hv : lexLt (primKey t) (primKey s) <;> simp_all
    have heq := (lexLt_connex _ _ h1f).resolve_right (by simp [h2f])
    exact iff_of_true (by norm_num) (Or.inr ⟨heq, lexLt_asymm h3⟩)
  · refine iff_of_false (by norm_num) ?_
    rintro (h | ⟨he, hf⟩)
    · simp [h] at h1
    · rw [hf] at h4; exact absurd h4 (by simp)
  · have h1f : lexLt (primKey s) (primKey t) = false := by
      cases hv : lexLt (primKey s) (primKey t) <;> simp_all
    have h2f : lexLt (primKey t) (primKey s) = false := by
      cases hv : lexLt (primKey t) (primKey s) <;> simp_all
    have h4f : lexLt (tertKey t) (tertKey s) = false := by
      cases hv : lexLt (tertKey t) (tertKey s) <;> simp_all
    have heq := (lexLt_connex _ _ h1f).resolve_right (by simp [h2f])
    exact iff_of_true (by norm_num) (Or.inr ⟨heq, h4f⟩)

theorem localeCompare_le_total (s t : String) :
    localeCompare s t ≤ 0 ∨ localeCompare t s ≤ 0 := by
  rw [localeCompare_le_iff, localeCompare_le_iff]
  cases h1 : lexLt (primKey s) (primKey t) with
  | true => exact Or.inl (Or.inl rfl)
  | false =>
    rcases lexLt_connex _ _ h1 with heq | hlt
    · cases h3 : lexLt (tertKey t) (tertKey s) with
      | false => exact Or.inl (Or.inr ⟨heq, rfl⟩)
      | true => exact Or.inr (Or.inr ⟨heq.symm, lexLt_asymm h3⟩)
    · exact Or.inr (Or.inl hlt)

theorem localeCompare_le_trans {s t u : String}
    (h1 : localeCompare s t ≤ 0) (h2 : localeCompare t u ≤ 0) :
    localeCompare s u ≤ 0 := by
  rw [localeCompare_le_iff] at h1 h2 ⊢
  rcases h1 with h1 | ⟨he1, ht1⟩
  · rcases h2 with h2 | ⟨he2, _⟩
    · exact Or.inl (lexLt_trans _ _ _ h1 h2)
    · exact Or.inl (he2 ▸ h1)
  · rcases h2 with h2 | ⟨he2, ht2⟩
    · exact Or.inl (he1 ▸ h2)
    · refine Or.inr ⟨he1.trans he2, ?_⟩
      cases hv : lexLt (tertKey u) (tertKey s) with
      | false => rfl
      | true =>
        rcases lexLt_connex _ _ ht2 with he | hl
        · rw [← he, hv] at ht1; exact absurd ht1 (by simp)
        · rcases lexLt_connex _ _ ht1 with he' | hl'
          · rw [he'] at hl; rw [lexLt_asymm hl] at hv; exact absurd hv (by simp)
          · have := lexLt_trans _ _ _ hl' hl
            rw [lexLt_asymm this] at hv; exact absurd hv (by simp)

theorem localeCompare_zero_symm {s t : String} (h : localeCompare s t = 0) :
    localeCompare t s = 0 := by
  unfold localeCompare at h ⊢
  split_ifs at h with h1 h2 h3 h4 <;> try omega
  have h1f : lexLt (primKey s) (primKey t) = false := by
    cases hv : lexLt (primKey s) (primKey t) <;> simp_all
  have h2f : lexLt (primKey t) (primKey s) = false := by
    cases hv : lexLt (primKey t) (primKey s) <;> simp_all
  have h3f : lexLt (tertKey s) (tertKey t) = false := by
    cases hv : lexLt (tertKey s) (tertKey t) <;> simp_all
  have h4f : lexLt (tertKey t) (tertKey s) = false := by
    cases hv : lexLt (tertKey t) (tertKey s) <;> simp_all
  simp [h1f, h2f, h3f, h4f]

/-! ### Generic facts about the stable-sort model -/

theorem jsSort_perm (cmp : α → α → Int) (l : List α) : List.Perm (jsSort cmp l) l :=
  List.perm_insertionSort _ l

theorem jsSort_mem {cmp : α → α → Int} {l : List α} {a : α} :
    a ∈ jsSort cmp l ↔ a ∈ l :=
  (jsSort_perm cmp l).mem_iff

theorem jsSort_pairwise (cmp : α → α → Int)
    (htrans : ∀ a b c, cmp a b ≤ 0 → cmp b c ≤ 0 → cmp a c ≤ 0)
    (htotal : ∀ a b, cmp a b ≤ 0 ∨ cmp b a ≤ 0) (l : List α) :
    (jsSort cmp l).Pairwise (fun a b => cmp a b ≤ 0) := by
  haveI : IsTotal α (fun a b => cmp a b ≤ 0) := ⟨fun a b => htotal a b⟩
  haveI : IsTrans α (fun a b => cmp a b ≤ 0) := ⟨fun a b c => htrans a b c⟩
  exact List.sorted_insertionSort _ l

theorem jsSort_pair_sublist (cmp : α → α → Int)
    {a b : α} {l : List α} (hab : cmp a b ≤ 0) (h : List.Sublist [a, b] l) :
    List.Sublist [a, b] (jsSort cmp l) :=
  List.pair_sublist_insertionSort hab h

theorem orderedInsert_congr {r s : α → α → Prop}
    [DecidableRel r] [DecidableRel s] (x : α) :
    ∀ l : List α, (∀ b ∈ l, (r x b ↔ s x b)) →
      l.orderedInsert r x = l.orderedInsert s x
  | [], _ => rfl
  | b :: t, h => by
    unfold List.orderedInsert
    by_cases hrb : r x b
    · rw [if_pos hrb, if_pos ((h b (List.mem_cons_self b t)).1 hrb)]
    · rw [if_neg hrb, if_neg (fun hs => hrb ((h b (List.mem_cons_self b t)).2 hs)),
        orderedInsert_congr x t (fun c hc => h c (List.mem_cons_of_mem b hc))]

theorem insertionSort_congr {r s : α → α → Prop}
    [DecidableRel r] [DecidableRel s] :
    ∀ l : List α, (∀ a ∈ l, ∀ b ∈ l, (r a b ↔ s a b)) →
      l.insertionSort r = l.insertionSort s
  | [], _ => rfl
  | x :: t, h => by
    rw [List.insertionSort, List.insertionSort,
      insertionSort_congr t
        (fun a ha b hb => h a (List.mem_cons_of_mem x ha) b (List.mem_cons_of_mem x hb))]
    apply orderedInsert_congr
    intro b hb
    have hbt : b ∈ t := (List.mem_insertionSort s).1 hb
    exact h x (List.mem_cons_self x t) b (List.mem_cons_of_mem x hbt)

theorem jsSort_congr (cmp1 cmp2 : α → α → Int) (l : List α)
    (h : ∀ a ∈ l, ∀ b ∈ l, cmp1 a b = cmp2 a b) :
    jsSort cmp1 l = jsSort cmp2 l := by
  unfold jsSort
  exact insertionSort_congr l (fun a ha b hb => by rw [h a ha b hb])

/-! ### Comparator properties -/

theorem searchCmp_trans (lq : String) :
    ∀ a b c, searchCmp lq a b ≤ 0 → searchCmp lq b c ≤ 0 → searchCmp lq a c ≤ 0 := by
  intro a b c hab hbc
  cases ha : titleMatch lq a <;> cases hb : titleMatch lq b <;>
    cases hc : titleMatch lq c <;>
      simp [searchCmp, ha, hb, hc] at hab hbc ⊢ <;> omega

theorem searchCmp_total (lq : String) :
    ∀ a b, searchCmp lq a b ≤ 0 ∨ searchCmp lq b a ≤ 0 := by
  intro a b
  cases ha : titleMatch lq a <;> cases hb : titleMatch lq b <;>
    simp [searchCmp, ha, hb] <;> omega

theorem sortCmp_trans (sortBy : String) :
    ∀ a b c, sortCmp sortBy a b ≤ 0 → sortCmp sortBy b c ≤ 0 → sortCmp sortBy a c ≤ 0 := by
  intro a b c hab hbc
  unfold sortCmp at hab hbc ⊢
  by_cases hd : sortBy = "date"
  · simp only [hd, if_true] at hab hbc ⊢; omega
  · simp only [hd, if_false] at hab hbc ⊢
    by_cases ht : sortBy = "title"
    · simp only [ht, if_true] at hab hbc ⊢
      exact localeCompare_le_trans hab hbc
    · simp [ht]

theorem sortCmp_total (sortBy : String) :
    ∀ a b, sortCmp sortBy a b ≤ 0 ∨ sortCmp sortBy b a ≤ 0 := by
  intro a b
  unfold sortCmp
  by_cases hd : sortBy = "date"
  · simp only [hd, if_true]; omega
  · simp only [hd, if_false]
    by_cases ht : sortBy = "title"
    · simp only [ht, if_true]
      exact localeCompare_le_total a.title b.title
    · simp [ht]

/-- Proof-side comparator: tagCmp with counts projected to numbers.
It agrees with tagCmp on entries whose counts are numbers (the only
entries that arise when no tag is named like an Object.prototype
member) and, unlike tagCmp in the presence of garbage strings, it is
transitive and total on all of TagWithCount. -/
def numTagCmp (a b : TagWithCount) : Int :=
  if (countNat b.count : Int) - (countNat a.count : Int) ≠ 0
  then (countNat b.count : Int) - (countNat a.count : Int)
  else localeCompare a.tag b.tag

theorem numTagCmp_le_iff (a b : TagWithCount) :
    numTagCmp a b ≤ 0 ↔
      (countNat b.count < countNat a.count
        ∨ (countNat a.count = countNat b.count ∧ localeCompare a.tag b.tag ≤ 0)) := by
  unfold numTagCmp
  split_ifs with h
  · omega
  · have : countNat a.count = countNat b.count := by omega
    simp [this]

theorem numTagCmp_trans :
    ∀ a b c, numTagCmp a b ≤ 0 → numTagCmp b c ≤ 0 → numTagCmp a c ≤ 0 := by
  intro a b c hab hbc
  rw [numTagCmp_le_iff] at hab hbc ⊢
  rcases hab with hab | ⟨he1, hl1⟩
  · rcases hbc with hbc | ⟨he2, _⟩
    · exact Or.inl (hbc.trans hab)
    · exact Or.inl (he2 ▸ hab)
  · rcases hbc with hbc | ⟨he2, hl2⟩
    · exact Or.inl (by omega)
    · exact Or.inr ⟨he1.trans he2, localeCompare_le_trans hl1 hl2⟩

theorem numTagCmp_total :
    ∀ a b, numTagCmp a b ≤ 0 ∨ numTagCmp b a ≤ 0 := by
  intro a b
  rw [numTagCmp_le_iff, numTagCmp_le_iff]
  rcases Nat.lt_trichotomy (countNat a.count) (countNat b.count) with h | h | h
  · exact Or.inr (Or.inl h)
  · rcases localeCompare_le_total a.tag b.tag with hl | hl
    · exact Or.inl (Or.inr ⟨h, hl⟩)
    · exact Or.inr (Or.inr ⟨h.symm, hl⟩)
  · exact Or.inl (Or.inl h)

theorem tagCmp_eq_numTagCmp {a b : TagWithCount} {na nb : Nat}
    (ha : a.count = TagCountValue.num na) (hb : b.count = TagCountValue.num nb) :
    tagCmp a b = numTagCmp a b := by
  simp only [tagCmp, numTagCmp, ha, hb, countNat]

/-! ### Claim C10: toggling an absent tag twice restores the sequence -/

/-- C10: for every selectedTags sequence and tag not in it, the first
toggle appends the tag at the end and the second toggle removes it,
restoring exactly the original sequence. -/
theorem toggleTag_toggleTag_of_not_mem (tags : List String) (tag : String)
    (h : tag ∉ tags) :
    toggleTag tags tag = tags ++ [tag] ∧
      toggleTag (toggleTag tags tag) tag = tags := by
  have hc : tags.contains tag = false := by
    simpa using h
  have happ : toggleTag tags tag = tags ++ [tag] := by
    unfold toggleTag
    rw [hc]
    simp
  refine ⟨happ, ?_⟩
  rw [happ]
  have hc2 : (tags ++ [tag]).contains tag = true := by simp
  have hfilter : tags.filter (fun t => t != tag) = tags :=
    List.filter_eq_self.mpr (fun a ha => by
      simp only [bne_iff_ne, ne_eq, decide_eq_true_eq]
      exact fun he => h (he ▸ ha))
  unfold toggleTag
  rw [hc2]
  simp [List.filter_append, hfilter]

/-- Witness for C10 at tags = ["a"], tag = "b". -/
theorem toggleTag_toggleTag_witness :
    toggleTag ["a"] "b" = ["a"] ++ ["b"] ∧
      toggleTag (toggleTag ["a"] "b") "b" = ["a"] :=
  toggleTag_toggleTag_of_not_mem ["a"] "b" (by decide)

/-! ### Claim C4: decoding unknown sort/order values -/

/-- C4 (code bug evidence): the URL-init effect casts the raw sort and
order parameters without validation; || only replaces null or the
empty string, so sort=banana yields sortBy = "banana" instead of the
claimed fallback to "date", and order=sideways yields
sortOrder = "sideways" instead of "desc". -/
theorem decodeState_keeps_unknown_sort_order :
    (decodeState [("sort", "banana")]).sortBy = "banana" ∧
      (decodeState [("order", "sideways")]).sortOrder = "sideways" ∧
      (decodeState []).sortBy = "date" ∧
      (decodeState []).sortOrder = "desc" := by
  refine ⟨rfl, rfl, rfl, rfl⟩

/-! ### Claim C1: URL round-trip -/

/-- C1 counterexample: a reachable state whose committed search query
carries surrounding whitespace is not restored by decode after encode;
the query comes back trimmed. -/
theorem stateCodec_roundtrip_cex :
    decodeState (encodeState
        { searchQuery := " a ", selectedTags := [], sortBy := "date", sortOrder := "desc" }) ≠
      { searchQuery := " a ", selectedTags := [], sortBy := "date", sortOrder := "desc" } := by
  decide

theorem getParam_cons (k v : String) (rest : List (String × String)) (key : String) :
    getParam ((k, v) :: rest) key = if k == key then some v else getParam rest key := by
  unfold getParam
  cases h : k == key with
  | true =>
    rw [List.find?_cons_of_pos]
    · simp
    · simpa using h
  | false =>
    rw [List.find?_cons_of_neg]
    · simp
    · simp [h]

theorem getAllParams_cons (k v : String) (rest : List (String × String)) (key : String) :
    getAllParams ((k, v) :: rest) key =
      if k == key then v :: getAllParams rest key else getAllParams rest key := by
  unfold getAllParams
  cases h : k == key <;> simp [List.filter_cons, h]

theorem getParam_tags (key : String) (h : key ≠ "tag") (tags : List String)
    (rest : List (String × String)) :
    getParam (tags.map (fun t => (("tag" : String), t)) ++ rest) key = getParam rest key := by
  induction tags with
  | nil => rfl
  | cons t ts ih =>
    have hk : (("tag" : String) == key) = false := by
      simpa using Ne.symm h
    simp [getParam_cons, hk, ih]

theorem getAllParams_nil_of (key : String) (rest : List (String × String))
    (h : ∀ p ∈ rest, p.1 ≠ key) : getAllParams rest key = [] := by
  induction rest with
  | nil => rfl
  | cons p ps ih =>
    obtain ⟨k, v⟩ := p
    have hk : (k == key) = false := by
      simpa using h (k, v) (by simp)
    rw [getAllParams_cons, if_neg (by simp [hk])]
    exact ih fun p hp => h p (by simp [hp])

theorem getAllParams_tags (tags : List String) (rest : List (String × String))
    (h : ∀ p ∈ rest, p.1 ≠ "tag") :
    getAllParams (tags.map (fun t => (("tag" : String), t)) ++ rest) "tag" = tags := by
  induction tags with
  | nil => simpa using getAllParams_nil_of "tag" rest h
  | cons t ts ih => simp [getAllParams_cons, ih]

theorem getParam_nil (key : String) : getParam [] key = none := rfl

theorem getParam_tags_only (key : String) (h : key ≠ "tag") (tags : List String) :
    getParam (tags.map (fun t => (("tag" : String), t))) key = none := by
  have := getParam_tags key h tags []
  simpa using this

theorem getAllParams_tags_only (tags : List String) :
    getAllParams (tags.map (fun t => (("tag" : String), t))) "tag" = tags := by
  have := getAllParams_tags tags [] (by simp)
  simpa using this

/-- C1 (amended): decode after encode restores every reachable filter
state whose committed search query equals its own trim; queries with
leading or trailing whitespace are the only reachable states that do
not round-trip (they come back trimmed). -/
theorem stateCodec_roundtrip (s : FilterState)
    (hsb : s.sortBy = "date" ∨ s.sortBy = "title")
    (hso : s.sortOrder = "asc" ∨ s.sortOrder = "desc")
    (hq : jsTrim s.searchQuery = s.searchQuery)
    (_hnd : s.selectedTags.Nodup) :
    decodeState (encodeState s) = s := by
  clear _hnd
  obtain ⟨q, tags, sb, so⟩ := s
  simp only at hsb hso hq
  by_cases hq0 : q = "" <;>
    rcases hsb with hsb | hsb <;> rcases hso with hso | hso <;>
      subst hsb <;> subst hso <;>
        simp [encodeState, decodeState, hq, hq0, getParam_cons, getAllParams_cons,
          getParam_tags, getAllParams_tags, getParam_nil, getParam_tags_only,
          getAllParams_tags_only, jsOrDefault]

/-- Witness for C1 at the state (query "next", tags ["Web"], sort by
title ascending). -/
theorem stateCodec_roundtrip_witness :
    decodeState (encodeState
        { searchQuery := "next", selectedTags := ["Web"], sortBy := "title", sortOrder := "asc" }) =
      { searchQuery := "next", selectedTags := ["Web"], sortBy := "title", sortOrder := "asc" } :=
  stateCodec_roundtrip
    { searchQuery := "next", selectedTags := ["Web"], sortBy := "title", sortOrder := "asc" }
    (Or.inr rfl) (Or.inl rfl) (by decide) (by decide)

/-! ### Pipeline helper lemmas -/

theorem searchPosts_eq_of_trim_empty {q : String} (h : jsTrim q = "")
    (posts : List BlogPostMeta) : searchPosts posts q = posts := by
  unfold searchPosts
  rw [if_pos h]

theorem searchPosts_perm_filter {q : String} (h : jsTrim q ≠ "")
    (posts : List BlogPostMeta) :
    List.Perm (searchPosts posts q) (posts.filter (postMatches (jsToLower q))) := by
  unfold searchPosts
  rw [if_neg h]
  exact jsSort_perm _ _

theorem mem_searchPosts {q : String} (h : jsTrim q ≠ "")
    (posts : List BlogPostMeta) (p : BlogPostMeta) :
    p ∈ searchPosts posts q ↔ p ∈ posts ∧ postMatches (jsToLower q) p = true := by
  rw [(searchPosts_perm_filter h posts).mem_iff, List.mem_filter]

theorem foldl_filterByTag_eq (tags : List String) (l : List BlogPostMeta) :
    tags.foldl (fun acc tag => filterPostsByTag acc tag) l
      = l.filter (fun p => tags.all (fun tag => hasTagCI p tag)) := by
  induction tags generalizing l with
  | nil => simp
  | cons t ts ih =>
    rw [List.foldl_cons, ih]
    unfold filterPostsByTag
    rw [List.filter_filter]
    apply List.filter_congr
    intro p _
    simp only [List.all_cons]
    exact Bool.and_comm _ _

theorem mem_foldl_filterByTag (tags : List String) (l : List BlogPostMeta)
    (p : BlogPostMeta) :
    p ∈ tags.foldl (fun acc tag => filterPostsByTag acc tag) l ↔
      p ∈ l ∧ ∀ t ∈ tags, hasTagCI p t = true := by
  rw [foldl_filterByTag_eq, List.mem_filter]
  simp [List.all_eq_true]

theorem sortPosts_perm (posts : List BlogPostMeta) (sortBy order : String) :
    List.Perm (sortPosts posts sortBy order) posts := by
  unfold sortPosts
  split_ifs
  · exact (List.reverse_perm _).trans (jsSort_perm _ _)
  · exact jsSort_perm _ _

theorem mem_sortPosts {posts : List BlogPostMeta} {sortBy order : String}
    {p : BlogPostMeta} : p ∈ sortPosts posts sortBy order ↔ p ∈ posts :=
  (sortPosts_perm posts sortBy order).mem_iff

theorem mem_evaluatePipeline (posts : List BlogPostMeta) (state : FilterState)
    (p : BlogPostMeta) :
    p ∈ evaluatePipeline posts state ↔
      (p ∈ (if jsTrim state.searchQuery ≠ "" then searchPosts posts state.searchQuery
            else posts)
        ∧ ∀ t ∈ state.selectedTags, hasTagCI p t = true) := by
  unfold evaluatePipeline
  rw [mem_sortPosts, mem_foldl_filterByTag]

theorem hasTagCI_of_mem {p : BlogPostMeta} {t : String} (h : t ∈ p.tags) :
    hasTagCI p t = true :=
  List.any_eq_true.mpr ⟨t, h, by simp⟩

/-! ### Claim C5: AND semantics across selected tags -/

/-- C5: a post is in the VisibleSet only if it carries every selected
tag case-insensitively; in particular, with tags t1 and t2 both on post
A but t2 absent from post B (case-insensitively), selecting [t1, t2]
yields a VisibleSet containing A but not B. -/
theorem pipeline_and_tag_semantics :
    (∀ (posts : List BlogPostMeta) (state : FilterState) (p : BlogPostMeta),
        p ∈ evaluatePipeline posts state →
          ∀ t ∈ state.selectedTags, hasTagCI p t = true)
    ∧ (∀ (posts : List BlogPostMeta) (A B : BlogPostMeta) (t1 t2 : String),
        t1 ≠ t2 → A ∈ posts → t1 ∈ A.tags → t2 ∈ A.tags → hasTagCI B t2 = false →
        A ∈ evaluatePipeline posts
            { searchQuery := "", selectedTags := [t1, t2],
              sortBy := "date", sortOrder := "desc" }
        ∧ B ∉ evaluatePipeline posts
            { searchQuery := "", selectedTags := [t1, t2],
              sortBy := "date", sortOrder := "desc" }) := by
  have honly : ∀ (posts : List BlogPostMeta) (state : FilterState) (p : BlogPostMeta),
      p ∈ evaluatePipeline posts state →
        ∀ t ∈ state.selectedTags, hasTagCI p t = true := by
    intro posts state p hp
    exact ((mem_evaluatePipeline posts state p).1 hp).2
  refine ⟨honly, ?_⟩
  intro posts A B t1 t2 _ hA ht1 ht2 hB2
  have htrim : jsTrim "" = "" := by decide
  constructor
  · rw [mem_evaluatePipeline]
    refine ⟨?_, ?_⟩
    · rw [if_neg (fun hc => hc htrim)]
      exact hA
    · intro t ht
      rcases List.mem_pair.mp ht with rfl | rfl
      · exact hasTagCI_of_mem ht1
      · exact hasTagCI_of_mem ht2
  · intro hB
    have := honly _ _ _ hB t2 (by simp)
    rw [this] at hB2
    exact absurd hB2 (by simp)

/-- Witness input for the pipeline claims. -/
def exPostA : BlogPostMeta :=
  { slug := "a", title := "Alpha", date := 0, excerpt := "", tags := ["t1", "t2"] }

/-- Witness input for the pipeline claims. -/
def exPostB : BlogPostMeta :=
  { slug := "b", title := "Beta", date := 0, excerpt := "", tags := ["t1"] }

/-- Witness for C5 at posts [A, B], tags ["t1", "t2"]. -/
theorem pipeline_and_tag_semantics_witness :
    exPostA ∈ evaluatePipeline [exPostA, exPostB]
        { searchQuery := "", selectedTags := ["t1", "t2"],
          sortBy := "date", sortOrder := "desc" }
    ∧ exPostB ∉ evaluatePipeline [exPostA, exPostB]
        { searchQuery := "", selectedTags := ["t1", "t2"],
          sortBy := "date", sortOrder := "desc" } :=
  pipeline_and_tag_semantics.2 [exPostA, exPostB] exPostA exPostB "t1" "t2"
    (by decide) (by simp) (by decide) (by decide) (by decide)

/-! ### Claim C6: VisibleSet is a duplicate-free subset of the full list -/

/-- C6: assuming the data-model invariant that slugs identify posts
uniquely, every post of the VisibleSet has its id in the full list and
no id appears twice in the VisibleSet. -/
theorem pipeline_subset_by_id (posts : List BlogPostMeta) (state : FilterState)
    (hnd : (posts.map (fun p => p.slug)).Nodup) :
    (∀ p ∈ evaluatePipeline posts state, p.slug ∈ posts.map (fun p => p.slug))
    ∧ ((evaluatePipeline posts state).map (fun p => p.slug)).Nodup := by
  obtain ⟨u, husub, hperm⟩ :
      ∃ u, List.Sublist u posts ∧ List.Perm
        (if jsTrim state.searchQuery ≠ "" then searchPosts posts state.searchQuery
         else posts) u := by
    by_cases h : jsTrim state.searchQuery = ""
    · exact ⟨posts, List.Sublist.refl posts, by rw [if_neg (fun hc => hc h)]⟩
    · exact ⟨posts.filter (postMatches (jsToLower state.searchQuery)),
        List.filter_sublist posts, by rw [if_pos h]; exact searchPosts_perm_filter h posts⟩
  have h3 : List.Perm (evaluatePipeline posts state)
      (u.filter (fun p => state.selectedTags.all (fun tag => hasTagCI p tag))) := by
    unfold evaluatePipeline
    refine (sortPosts_perm _ _ _).trans ?_
    rw [foldl_filterByTag_eq]
    exact hperm.filter _
  have h4 : List.Sublist
      (u.filter (fun p => state.selectedTags.all (fun tag => hasTagCI p tag))) posts :=
    (List.filter_sublist u).trans husub
  constructor
  · intro p hp
    exact List.mem_map_of_mem _ (h4.subset (h3.mem_iff.1 hp))
  · exact ((h3.map _).nodup_iff).mpr ((h4.map _).nodup hnd)

/-- Witness for C6 at posts [A, B] and the default state. -/
theorem pipeline_subset_by_id_witness :
    (∀ p ∈ evaluatePipeline [exPostA, exPostB] defaultFilterState,
        p.slug ∈ [exPostA, exPostB].map (fun p => p.slug))
    ∧ ((evaluatePipeline [exPostA, exPostB] defaultFilterState).map
        (fun p => p.slug)).Nodup :=
  pipeline_subset_by_id [exPostA, exPostB] defaultFilterState (by decide)

/-! ### Claim C7: default state returns the full list, date descending -/

/-- C7: with the default filter state the pipeline is a permutation of
the full list ordered by publishedAt descending. -/
theorem pipeline_default_date_desc (posts : List BlogPostMeta) :
    List.Perm (evaluatePipeline posts defaultFilterState) posts
    ∧ (evaluatePipeline posts defaultFilterState).Pairwise
        (fun a b => b.date ≤ a.date) := by
  have htrim : jsTrim "" = "" := by decide
  have hpipe : evaluatePipeline posts defaultFilterState
      = (jsSort (sortCmp "date") posts).reverse := by
    unfold evaluatePipeline defaultFilterState sortPosts
    simp [htrim]
  constructor
  · rw [hpipe]
    exact (List.reverse_perm _).trans (jsSort_perm _ _)
  · rw [hpipe, List.pairwise_reverse]
    refine (jsSort_pairwise (sortCmp "date") (sortCmp_trans "date")
      (sortCmp_total "date") posts).imp ?_
    intro a b h
    simp [sortCmp] at h
    omega

/-! ### Claim C2: tie handling of sortPosts under order inversion -/

/-- Tie witness input: two posts with equal dates. -/
def tiePost1 : BlogPostMeta :=
  { slug := "p1", title := "first", date := 5, excerpt := "", tags := [] }

/-- Tie witness input: two posts with equal dates. -/
def tiePost2 : BlogPostMeta :=
  { slug := "p2", title := "second", date := 5, excerpt := "", tags := [] }

/-- C2 counterexample: two posts with tied dates keep input order under
asc but come out reversed under desc, so the relative order of tied
posts under desc equals neither their asc order nor their input order. -/
theorem sortPosts_tie_reversal_cex :
    sortCmp "date" tiePost1 tiePost2 = 0
    ∧ sortPosts [tiePost1, tiePost2] "date" "asc" = [tiePost1, tiePost2]
    ∧ sortPosts [tiePost1, tiePost2] "date" "desc" = [tiePost2, tiePost1] := by
  decide

/-- C2 (amended): the ascending direction stable-sorts, so tied posts
keep their input order; the descending direction is the reverse of the
ascending result, so tied posts appear in reversed input order —
reversing sortOrder does reverse ties. -/
theorem sortPosts_ties (posts : List BlogPostMeta) (sortBy : String)
    (a b : BlogPostMeta) (hab : List.Sublist [a, b] posts)
    (tie : sortCmp sortBy a b = 0) :
    sortPosts posts sortBy "desc" = (sortPosts posts sortBy "asc").reverse
    ∧ List.Sublist [a, b] (sortPosts posts sortBy "asc")
    ∧ List.Sublist [b, a] (sortPosts posts sortBy "desc") := by
  have hasc : sortPosts posts sortBy "asc" = jsSort (sortCmp sortBy) posts := by
    unfold sortPosts
    simp
  have hdesc : sortPosts posts sortBy "desc" = (jsSort (sortCmp sortBy) posts).reverse := by
    unfold sortPosts
    simp
  have hpair : List.Sublist [a, b] (jsSort (sortCmp sortBy) posts) :=
    jsSort_pair_sublist (sortCmp sortBy) (le_of_eq tie) hab
  refine ⟨by rw [hasc, hdesc], by rw [hasc]; exact hpair, ?_⟩
  rw [hdesc]
  have := hpair.reverse
  simpa using this

/-- Witness for C2 at the tied pair. -/
theorem sortPosts_ties_witness :
    sortPosts [tiePost1, tiePost2] "date" "desc"
        = (sortPosts [tiePost1, tiePost2] "date" "asc").reverse
    ∧ List.Sublist [tiePost1, tiePost2] (sortPosts [tiePost1, tiePost2] "date" "asc")
    ∧ List.Sublist [tiePost2, tiePost1] (sortPosts [tiePost1, tiePost2] "date" "desc") :=
  sortPosts_ties [tiePost1, tiePost2] "date" tiePost1 tiePost2 (by decide) (by decide)

/-! ### Claim C3: membership and ordering of searchPosts -/

/-- Search witness input: both titles contain "x"; input order is the
older post first. -/
def searchPost1 : BlogPostMeta :=
  { slug := "p1", title := "x old", date := 1, excerpt := "", tags := [] }

/-- Search witness input: both titles contain "x"; input order is the
older post first. -/
def searchPost2 : BlogPostMeta :=
  { slug := "p2", title := "x new", date := 2, excerpt := "", tags := [] }

/-- C3 counterexample: both posts match the query in the title, yet the
result does not preserve their input order — the newer post moves
first, because within each group searchPosts re-sorts by date
descending instead of keeping input order. -/
theorem searchPosts_order_cex :
    titleMatch (jsToLower "x") searchPost1 = true
    ∧ titleMatch (jsToLower "x") searchPost2 = true
    ∧ searchPosts [searchPost1, searchPost2] "x" = [searchPost2, searchPost1] := by
  decide

/-- C3 (amended): for a query nonempty after trimming, the result
contains exactly the posts matching the query case-insensitively in
title, excerpt or a tag; title matches precede the rest; but within
each group the posts are ordered by date descending (with full
comparator ties keeping input order), not by input order. -/
theorem searchPosts_spec (posts : List BlogPostMeta) (query : String)
    (h : jsTrim query ≠ "") :
    (∀ p, p ∈ searchPosts posts query ↔
        p ∈ posts ∧ postMatches (jsToLower query) p = true)
    ∧ (searchPosts posts query).Pairwise (fun a b =>
        (titleMatch (jsToLower query) a = true ∧ titleMatch (jsToLower query) b = false)
        ∨ (titleMatch (jsToLower query) a = titleMatch (jsToLower query) b
            ∧ b.date ≤ a.date))
    ∧ (∀ a b, List.Sublist [a, b] posts →
        postMatches (jsToLower query) a = true → postMatches (jsToLower query) b = true →
        searchCmp (jsToLower query) a b = 0 →
        List.Sublist [a, b] (searchPosts posts query)) := by
  have hdef : searchPosts posts query
      = jsSort (searchCmp (jsToLower query)) (posts.filter (postMatches (jsToLower query))) := by
    unfold searchPosts
    rw [if_neg h]
  refine ⟨?_, ?_, ?_⟩
  · intro p
    rw [mem_searchPosts h]
  · rw [hdef]
    refine (jsSort_pairwise _ (searchCmp_trans _) (searchCmp_total _) _).imp ?_
    intro a b hab
    cases ha : titleMatch (jsToLower query) a <;>
      cases hb : titleMatch (jsToLower query) b <;>
        simp [searchCmp, ha, hb] at hab ⊢ <;> omega
  · intro a b hab hma hmb htie
    rw [hdef]
    refine jsSort_pair_sublist _ (le_of_eq htie) ?_
    have := hab.filter (postMatches (jsToLower query))
    simpa [hma, hmb] using this

/-- Witness for C3 at posts [p1, p2] and query "x". -/
theorem searchPosts_spec_witness :
    (∀ p, p ∈ searchPosts [searchPost1, searchPost2] "x" ↔
        p ∈ [searchPost1, searchPost2] ∧ postMatches (jsToLower "x") p = true)
    ∧ (searchPosts [searchPost1, searchPost2] "x").Pairwise (fun a b =>
        (titleMatch (jsToLower "x") a = true ∧ titleMatch (jsToLower "x") b = false)
        ∨ (titleMatch (jsToLower "x") a = titleMatch (jsToLower "x") b
            ∧ b.date ≤ a.date))
    ∧ (∀ a b, List.Sublist [a, b] [searchPost1, searchPost2] →
        postMatches (jsToLower "x") a = true → postMatches (jsToLower "x") b = true →
        searchCmp (jsToLower "x") a b = 0 →
        List.Sublist [a, b] (searchPosts [searchPost1, searchPost2] "x")) :=
  searchPosts_spec [searchPost1, searchPost2] "x" (by decide)

/-! ### Association-list lemmas for the tag-count accumulator -/

/-- Proof-side accumulator: the plain-object update restricted to tags
that avoid Object.prototype member names, where every stored value is a
plain number.  Related to bumpTag below by natBump_lift. -/
def natBump : List (String × Nat) → String → List (String × Nat)
  | [], tag => [(tag, 1)]
  | (k, c) :: rest, tag =>
      if k = tag then (k, c + 1) :: rest else (k, c) :: natBump rest tag

/-- Proof-side counterpart of tagCountsOf over natBump. -/
def natTagCounts (posts : List BlogPostMeta) : List (String × Nat) :=
  posts.foldl (fun acc post => post.tags.foldl natBump acc) []

/-- Lifts a numeric accumulator entry to a runtime entry. -/
def natEntry (e : String × Nat) : String × TagCountValue :=
  (e.1, TagCountValue.num e.2)

/-- Lookup in the tagCounts association list (0 when absent, matching
the JavaScript (tagCounts[tag] || 0) read). -/
def valOf : List (String × Nat) → String → Nat
  | [], _ => 0
  | (k, c) :: rest, key => if k = key then c else valOf rest key

theorem valOf_natBump (m : List (String × Nat)) (t k : String) :
    valOf (natBump m t) k = valOf m k + (if k = t then 1 else 0) := by
  induction m with
  | nil =>
    by_cases h : k = t
    · subst h; simp [natBump, valOf]
    · simp [natBump, valOf, h, Ne.symm h]
  | cons e rest ih =>
    obtain ⟨k0, c0⟩ := e
    by_cases h0 : k0 = t
    · subst h0
      by_cases hk : k0 = k
      · subst hk; simp [natBump, valOf]
      · have hk2 : ¬(k = k0) := fun h => hk h.symm
        simp [natBump, valOf, hk, hk2]
    · by_cases hk : k0 = k
      · subst hk
        have hkt : ¬(k0 = t) := h0
        simp [natBump, h0, valOf, hkt]
      · simp [natBump, h0, valOf, hk, ih]

theorem keysOf_natBump (m : List (String × Nat)) (t : String) :
    (natBump m t).map (fun e => e.1)
      = if t ∈ m.map (fun e => e.1) then m.map (fun e => e.1)
        else m.map (fun e => e.1) ++ [t] := by
  induction m with
  | nil => simp [natBump]
  | cons e rest ih =>
    obtain ⟨k0, c0⟩ := e
    by_cases h0 : k0 = t
    · subst h0; simp [natBump]
    · by_cases hm : t ∈ rest.map (fun e => e.1) <;>
        simp [natBump, h0, ih, hm, Ne.symm h0]

theorem keys_nodup_natBump (m : List (String × Nat)) (t : String)
    (h : (m.map (fun e => e.1)).Nodup) :
    ((natBump m t).map (fun e => e.1)).Nodup := by
  rw [keysOf_natBump]
  split_ifs with hm
  · exact h
  · simp [List.nodup_append, h, hm]

theorem mem_keys_natBump (m : List (String × Nat)) (t k : String) :
    k ∈ (natBump m t).map (fun e => e.1) ↔ k ∈ m.map (fun e => e.1) ∨ k = t := by
  rw [keysOf_natBump]
  split_ifs with hm
  · constructor
    · exact fun h => Or.inl h
    · rintro (h | rfl)
      · exact h
      · exact hm
  · simp

theorem entry_eq_valOf (m : List (String × Nat))
    (hnd : (m.map (fun e => e.1)).Nodup) :
    ∀ e ∈ m, e.2 = valOf m e.1 := by
  induction m with
  | nil => intro e he; cases he
  | cons e0 rest ih =>
    obtain ⟨k0, c0⟩ := e0
    intro e he
    rcases List.mem_cons.mp he with rfl | he
    · simp [valOf]
    · have hne : k0 ≠ e.1 := by
        intro hcontra
        have : e.1 ∈ rest.map (fun x => x.1) := List.mem_map_of_mem _ he
        rw [← hcontra] at this
        exact (List.nodup_cons.mp (by simpa using hnd)).1 this
      rw [valOf, if_neg hne]
      exact ih (List.nodup_cons.mp (by simpa using hnd)).2 e he

theorem valOf_foldl_tags (ts : List String) (m : List (String × Nat)) (k : String) :
    valOf (ts.foldl natBump m) k = valOf m k + ts.count k := by
  induction ts generalizing m with
  | nil => simp
  | cons t ts ih =>
    rw [List.foldl_cons, ih, valOf_natBump, List.count_cons]
    by_cases h : k = t
    · subst h; simp; omega
    · have h2 : (t == k) = false := by
        simpa using Ne.symm h
      simp [h, h2]

theorem keys_foldl_tags (ts : List String) (m : List (String × Nat)) (k : String) :
    k ∈ ((ts.foldl natBump m).map (fun e => e.1)) ↔
      k ∈ m.map (fun e => e.1) ∨ k ∈ ts := by
  induction ts generalizing m with
  | nil => simp
  | cons t ts ih =>
    rw [List.foldl_cons, ih, mem_keys_natBump]
    constructor
    · rintro ((h | rfl) | h)
      · exact Or.inl h
      · exact Or.inr (by simp)
      · exact Or.inr (by simp [h])
    · rintro (h | h)
      · exact Or.inl (Or.inl h)
      · rcases List.mem_cons.mp h with rfl | h
        · exact Or.inl (Or.inr rfl)
        · exact Or.inr h

theorem keys_nodup_foldl_tags (ts : List String) (m : List (String × Nat))
    (h : (m.map (fun e => e.1)).Nodup) :
    ((ts.foldl natBump m).map (fun e => e.1)).Nodup := by
  induction ts generalizing m with
  | nil => exact h
  | cons t ts ih => exact ih _ (keys_nodup_natBump m t h)

theorem valOf_natTagCounts (posts : List BlogPostMeta) (k : String) :
    valOf (natTagCounts posts) k = (posts.map (fun p => p.tags.count k)).sum := by
  suffices hgen : ∀ m : List (String × Nat),
      valOf (posts.foldl (fun acc post => post.tags.foldl natBump acc) m) k
        = valOf m k + (posts.map (fun p => p.tags.count k)).sum by
    simpa [natTagCounts, valOf] using hgen []
  induction posts with
  | nil => intro m; simp
  | cons p ps ih =>
    intro m
    rw [List.foldl_cons, ih, valOf_foldl_tags, List.map_cons, List.sum_cons]
    omega

theorem mem_keys_natTagCounts (posts : List BlogPostMeta) (k : String) :
    k ∈ (natTagCounts posts).map (fun e => e.1) ↔ ∃ p ∈ posts, k ∈ p.tags := by
  suffices hgen : ∀ m : List (String × Nat),
      k ∈ ((posts.foldl (fun acc post => post.tags.foldl natBump acc) m).map
        (fun e => e.1))
      ↔ k ∈ m.map (fun e => e.1) ∨ ∃ p ∈ posts, k ∈ p.tags by
    simpa [natTagCounts] using hgen []
  induction posts with
  | nil => intro m; simp
  | cons p ps ih =>
    intro m
    rw [List.foldl_cons, ih, keys_foldl_tags]
    constructor
    · rintro ((h | h) | ⟨q, hq, hk⟩)
      · exact Or.inl h
      · exact Or.inr ⟨p, by simp, h⟩
      · exact Or.inr ⟨q, by simp [hq], hk⟩
    · rintro (h | ⟨q, hq, hk⟩)
      · exact Or.inl (Or.inl h)
      · rcases List.mem_cons.mp hq with rfl | hq
        · exact Or.inl (Or.inr hk)
        · exact Or.inr ⟨q, hq, hk⟩

theorem keys_nodup_natTagCounts (posts : List BlogPostMeta) :
    ((natTagCounts posts).map (fun e => e.1)).Nodup := by
  suffices hgen : ∀ m : List (String × Nat), (m.map (fun e => e.1)).Nodup →
      (((posts.foldl (fun acc post => post.tags.foldl natBump acc) m).map
        (fun e => e.1))).Nodup by
    exact hgen [] (by simp)
  induction posts with
  | nil => exact fun m h => h
  | cons p ps ih =>
    intro m h
    rw [List.foldl_cons]
    exact ih _ (keys_nodup_foldl_tags _ _ h)

theorem sum_count_eq_filter_length (posts : List BlogPostMeta) (k : String)
    (hnd : ∀ p ∈ posts, p.tags.Nodup) :
    (posts.map (fun p => p.tags.count k)).sum
      = (posts.filter (fun p => decide (k ∈ p.tags))).length := by
  induction posts with
  | nil => simp
  | cons p ps ih =>
    have hp : p.tags.Nodup := hnd p (by simp)
    have hps : ∀ q ∈ ps, q.tags.Nodup := fun q hq => hnd q (by simp [hq])
    by_cases hm : k ∈ p.tags
    · rw [List.map_cons, List.sum_cons, List.filter_cons,
        List.count_eq_one_of_mem hp hm, ih hps]
      simp only [hm, decide_True, if_true, List.length_cons]
      omega
    · rw [List.map_cons, List.sum_cons, List.filter_cons,
        List.count_eq_zero_of_not_mem hm, ih hps]
      simp [hm]

theorem bumpOwn_lift (m : List (String × Nat)) (tag : String)
    (hf : tag ∉ objectProtoFns) :
    bumpOwn (m.map natEntry) tag = (natBump m tag).map natEntry := by
  induction m with
  | nil =>
    simp [bumpOwn, natBump, natEntry, initialTagValue, hf]
  | cons e rest ih =>
    obtain ⟨k, c⟩ := e
    by_cases hk : k = tag
    · simp [bumpOwn, natBump, natEntry, hk, jsPlusOne]
    · simp [bumpOwn, natBump, natEntry, hk, ih]

theorem bumpTag_lift (m : List (String × Nat)) (tag : String)
    (h : tag ∉ objectProtoKeys) :
    bumpTag (m.map natEntry) tag = (natBump m tag).map natEntry := by
  have hp : tag ≠ "__proto__" := fun he => h (by rw [he]; simp [objectProtoKeys])
  have hf : tag ∉ objectProtoFns := fun hm => h (by simp [objectProtoKeys, hm])
  rw [bumpTag, if_neg hp]
  exact bumpOwn_lift m tag hf

theorem foldl_bumpTag_lift (ts : List String) (m : List (String × Nat))
    (hts : ∀ t ∈ ts, t ∉ objectProtoKeys) :
    ts.foldl bumpTag (m.map natEntry) = (ts.foldl natBump m).map natEntry := by
  induction ts generalizing m with
  | nil => rfl
  | cons t ts ih =>
    rw [List.foldl_cons, List.foldl_cons,
      bumpTag_lift m t (hts t (List.mem_cons_self t ts))]
    exact ih _ fun u hu => hts u (List.mem_cons_of_mem t hu)

/-- When no tag is named like an Object.prototype member, the runtime
accumulator is exactly the numeric accumulator. -/
theorem tagCountsOf_lift (posts : List BlogPostMeta)
    (h : ∀ p ∈ posts, ∀ t ∈ p.tags, t ∉ objectProtoKeys) :
    tagCountsOf posts = (natTagCounts posts).map natEntry := by
  suffices hgen : ∀ m : List (String × Nat),
      (∀ p ∈ posts, ∀ t ∈ p.tags, t ∉ objectProtoKeys) →
      posts.foldl (fun acc post => post.tags.foldl bumpTag acc) (m.map natEntry)
        = (posts.foldl (fun acc post => post.tags.foldl natBump acc) m).map natEntry by
    simpa [tagCountsOf, natTagCounts] using hgen [] h
  clear h
  induction posts with
  | nil => intro m _; rfl
  | cons p ps ih =>
    intro m hh
    rw [List.foldl_cons, List.foldl_cons,
      foldl_bumpTag_lift p.tags m (hh p (List.mem_cons_self p ps))]
    exact ih _ fun q hq => hh q (List.mem_cons_of_mem p hq)

/-! ### Claim C8: ordering of getAllTagsFromPosts -/

/-- Case-sensitive ordinal (code-point) strict order on strings; this
is the tie-break order the claim asserts, stated here only so the claim
can be refuted against the code's localeCompare tie-break. -/
def ordinalLt (s t : String) : Bool :=
  lexLt (s.data.map Char.toNat) (t.data.map Char.toNat)

/-- Input for the C8 counterexample and the C8/C9 witnesses: one post
with tags "a" and "B". -/
def caseTagPost : BlogPostMeta :=
  { slug := "c", title := "t", date := 1, excerpt := "", tags := ["a", "B"] }

/-- C8 counterexample: with tag counts tied, ordinal order puts "B"
(code point 66) before "a" (code point 97), but the code localeCompare
tie-break puts "a" first, so the output is not sorted by
case-sensitive ordinal tag order. -/
theorem getAllTags_ordinal_cex :
    ordinalLt "B" "a" = true
    ∧ getAllTagsFromPosts [caseTagPost]
        = [⟨"a", TagCountValue.num 1⟩, ⟨"B", TagCountValue.num 1⟩]
    ∧ getAllTagsFromPosts [caseTagPost]
        ≠ [⟨"B", TagCountValue.num 1⟩, ⟨"a", TagCountValue.num 1⟩] := by
  decide

/-- C8 (amended): provided no tag is named like an Object.prototype
member (such tags corrupt the plain-object accumulator: __proto__
creates no entry and the others store non-numeric strings that defeat
the numeric comparison), every output count is a number and the output
is sorted by count descending, with ties broken by tag name ascending
under the locale-aware localeCompare comparison (which orders "a"
before "B"), not under case-sensitive ordinal comparison. -/
theorem getAllTags_sorted (posts : List BlogPostMeta)
    (hpt : ∀ p ∈ posts, ∀ t ∈ p.tags, t ∉ objectProtoKeys) :
    (∀ e ∈ getAllTagsFromPosts posts, ∃ n, e.count = TagCountValue.num n)
    ∧ (getAllTagsFromPosts posts).Pairwise (fun a b =>
        countNat b.count < countNat a.count
        ∨ (countNat a.count = countNat b.count ∧ localeCompare a.tag b.tag ≤ 0)) := by
  have hlift := tagCountsOf_lift posts hpt
  have hnums : ∀ e ∈ (tagCountsOf posts).map
      (fun e => (⟨e.1, e.2⟩ : TagWithCount)), ∃ n, e.count = TagCountValue.num n := by
    rw [hlift, List.map_map]
    intro e he
    obtain ⟨e0, _, rfl⟩ := List.mem_map.1 he
    exact ⟨e0.2, rfl⟩
  have hout : getAllTagsFromPosts posts
      = jsSort numTagCmp ((tagCountsOf posts).map (fun e => ⟨e.1, e.2⟩)) := by
    unfold getAllTagsFromPosts
    refine jsSort_congr _ _ _ ?_
    intro a ha b hb
    obtain ⟨na, hna⟩ := hnums a ha
    obtain ⟨nb, hnb⟩ := hnums b hb
    exact tagCmp_eq_numTagCmp hna hnb
  constructor
  · intro e he
    unfold getAllTagsFromPosts at he
    exact hnums e (jsSort_mem.1 he)
  · rw [hout]
    refine (jsSort_pairwise numTagCmp numTagCmp_trans numTagCmp_total _).imp ?_
    intro a b h
    exact (numTagCmp_le_iff a b).1 h

/-- Witness for C8 at a single post with tags ["a", "B"]. -/
theorem getAllTags_sorted_witness :
    (∀ e ∈ getAllTagsFromPosts [caseTagPost], ∃ n, e.count = TagCountValue.num n)
    ∧ (getAllTagsFromPosts [caseTagPost]).Pairwise (fun a b =>
        countNat b.count < countNat a.count
        ∨ (countNat a.count = countNat b.count ∧ localeCompare a.tag b.tag ≤ 0)) :=
  getAllTags_sorted [caseTagPost] (by decide)

/-! ### Claim C9: one entry per distinct tag with post counts -/

/-- Input for the C9 counterexample: a post whose only tag is
__proto__. -/
def protoTagPost : BlogPostMeta :=
  { slug := "c", title := "t", date := 1, excerpt := "", tags := ["__proto__"] }

/-- C9 counterexample: a post tagged __proto__ (a duplicate-free tags
array) produces no entry at all — the assignment goes through the
inherited __proto__ accessor and creates no own property — while the
claim demands exactly one entry for it with count 1. -/
theorem getAllTags_proto_cex :
    protoTagPost.tags.Nodup
    ∧ "__proto__" ∈ protoTagPost.tags
    ∧ getAllTagsFromPosts [protoTagPost] = [] := by
  decide

/-- C9 (amended): when no post repeats a tag and no tag is named like
an Object.prototype member, the result has exactly one entry per
distinct (case-sensitive) tag string, each entry carries the number of
posts whose tags contain that string, and that number is at least 1. -/
theorem getAllTags_per_tag (posts : List BlogPostMeta)
    (hnd : ∀ p ∈ posts, p.tags.Nodup)
    (hpt : ∀ p ∈ posts, ∀ t ∈ p.tags, t ∉ objectProtoKeys) :
    ((getAllTagsFromPosts posts).map (fun e => e.tag)).Nodup
    ∧ (∀ t : String,
        (∃ e ∈ getAllTagsFromPosts posts, e.tag = t) ↔ ∃ p ∈ posts, t ∈ p.tags)
    ∧ (∀ e ∈ getAllTagsFromPosts posts,
        e.count = TagCountValue.num ((posts.filter (fun p => decide (e.tag ∈ p.tags))).length)
        ∧ 1 ≤ (posts.filter (fun p => decide (e.tag ∈ p.tags))).length) := by
  have hlift := tagCountsOf_lift posts hpt
  have hperm : List.Perm (getAllTagsFromPosts posts)
      ((natTagCounts posts).map
        (fun e => (⟨e.1, TagCountValue.num e.2⟩ : TagWithCount))) := by
    have h0 : List.Perm (getAllTagsFromPosts posts)
        ((tagCountsOf posts).map (fun e => (⟨e.1, e.2⟩ : TagWithCount))) :=
      jsSort_perm _ _
    rw [hlift, List.map_map] at h0
    exact h0
  have hkeys : ((natTagCounts posts).map
        (fun e => (⟨e.1, TagCountValue.num e.2⟩ : TagWithCount))).map (fun e => e.tag)
      = (natTagCounts posts).map (fun e => e.1) := by
    rw [List.map_map]
    rfl
  refine ⟨?_, ?_, ?_⟩
  · refine ((hperm.map (fun e => e.tag)).nodup_iff).mpr ?_
    rw [hkeys]
    exact keys_nodup_natTagCounts posts
  · intro t
    constructor
    · rintro ⟨e, he, rfl⟩
      obtain ⟨e0, he0, rfl⟩ := List.mem_map.1 (hperm.mem_iff.1 he)
      exact (mem_keys_natTagCounts posts e0.1).1 (List.mem_map_of_mem _ he0)
    · intro hex
      obtain ⟨e0, he0, hk⟩ := List.mem_map.1 ((mem_keys_natTagCounts posts t).2 hex)
      refine ⟨⟨e0.1, TagCountValue.num e0.2⟩, ?_, hk⟩
      exact hperm.mem_iff.2 (List.mem_map_of_mem _ he0)
  · intro e he
    obtain ⟨e0, he0, rfl⟩ := List.mem_map.1 (hperm.mem_iff.1 he)
    have hval : e0.2 = valOf (natTagCounts posts) e0.1 :=
      entry_eq_valOf _ (keys_nodup_natTagCounts posts) e0 he0
    have hcount : e0.2 = (posts.filter (fun p => decide (e0.1 ∈ p.tags))).length := by
      rw [hval, valOf_natTagCounts, sum_count_eq_filter_length posts e0.1 hnd]
    refine ⟨by rw [hcount], ?_⟩
    obtain ⟨p, hp, htag⟩ :=
      (mem_keys_natTagCounts posts e0.1).1 (List.mem_map_of_mem _ he0)
    have hmemf : p ∈ posts.filter (fun p => decide (e0.1 ∈ p.tags)) :=
      List.mem_filter.2 ⟨hp, by simpa using htag⟩
    exact List.length_pos_of_mem hmemf

/-- Witness for C9 at a single post with tags ["a", "B"]. -/
theorem getAllTags_per_tag_witness :
    ((getAllTagsFromPosts [caseTagPost]).map (fun e => e.tag)).Nodup
    ∧ (∀ t : String,
        (∃ e ∈ getAllTagsFromPosts [caseTagPost], e.tag = t)
          ↔ ∃ p ∈ [caseTagPost], t ∈ p.tags)
    ∧ (∀ e ∈ getAllTagsFromPosts [caseTagPost],
        e.count = TagCountValue.num
            (([caseTagPost].filter (fun p => decide (e.tag ∈ p.tags))).length)
        ∧ 1 ≤ ([caseTagPost].filter (fun p => decide (e.tag ∈ p.tags))).length) :=
  getAllTags_per_tag [caseTagPost] (by decide) (by decide)

end Portfolio
